import Mathlib

/-!
Verification of dso-file-name-anonymizer (src/main.py).

The program renames every regular file in a directory to
prefix + hexdigest(algorithm, utf8(original name)) + extension, with a
dry-run mode and per-file error isolation.

Modelling choices (shallow embedding of the Python code):
* A Python `str` is a sequence of Unicode code points, including lone
  surrogates (which `os.listdir` can produce on POSIX via surrogateescape and
  which make `.encode("utf-8")` raise).  We model it as `PyStr := List Nat`.
* `hashlib` digests are computed by executable Lean implementations of
  MD5 / SHA-1 / SHA-256 / SHA-512 over byte lists, validated below against
  the published test vectors.  `hashlib.new` is modelled as supporting
  exactly the four algorithm names the CLI exposes and failing (ValueError,
  i.e. `none`) on any other name.
* The directory is a list of entries (name, regular-file flag, content
  bytes); `os.rename` follows POSIX semantics (missing source or directory
  target fail, an existing regular-file target is overwritten) plus an
  abstract environment predicate for failures such as permission errors.
-/

namespace DSO

/-- A Python string: a list of Unicode code points (lone surrogates allowed,
as Python `str` permits them even though they cannot be UTF-8 encoded). -/
abbrev PyStr := List Nat

/-- Embed a Lean string literal as a `PyStr` (lists of code points). -/
def pyStr (s : String) : PyStr := s.data.map Char.toNat

/-- UTF-8 encoding of one code point; `none` on a lone surrogate or an
out-of-range value, exactly where CPython `str.encode("utf-8")` raises. -/
def utf8EncodeChar (c : Nat) : Option (List Nat) :=
  if c < 128 then some [c]
  else if c < 2048 then some [192 + c / 64, 128 + c % 64]
  else if c < 65536 then
    if 55296 ≤ c ∧ c ≤ 57343 then none
    else some [224 + c / 4096, 128 + c / 64 % 64, 128 + c % 64]
  else if c < 1114112 then
    some [240 + c / 262144, 128 + c / 4096 % 64, 128 + c / 64 % 64, 128 + c % 64]
  else none

/-- Python `s.encode("utf-8")`: UTF-8 bytes of the whole string, or `none` if any
code point is unencodable (a `UnicodeEncodeError` in the Python source). -/
def utf8Encode : PyStr → Option (List Nat)
  | [] => some []
  | c :: cs =>
    match utf8EncodeChar c, utf8Encode cs with
    | some b, some bs => some (b ++ bs)
    | _, _ => none

/-- Lowercase hexadecimal digit for a value below 16 (as a code point). -/
def hexChar (n : Nat) : Nat := if n < 10 then 48 + n else 87 + n

/-- The `.hexdigest()` of `hashlib`: lowercase hex encoding of the digest bytes. -/
def hexOfBytes (bs : List Nat) : PyStr :=
  bs.flatMap (fun b => [hexChar (b / 16 % 16), hexChar (b % 16)])

/-! ### 32/64-bit modular arithmetic helpers -/

def M32 : Nat := 4294967296

def M64 : Nat := 18446744073709551616

def a32 (a b : Nat) : Nat := (a + b) % M32

def a64 (a b : Nat) : Nat := (a + b) % M64

def not32 (x : Nat) : Nat := 4294967295 - x % M32

def not64 (x : Nat) : Nat := 18446744073709551615 - x % M64

def rotl32 (x s : Nat) : Nat := (x % M32 * 2 ^ s + x % M32 / 2 ^ (32 - s)) % M32

def rotr32 (x s : Nat) : Nat := (x % M32 / 2 ^ s + x % M32 * 2 ^ (32 - s)) % M32

def rotr64 (x s : Nat) : Nat := (x % M64 / 2 ^ s + x % M64 * 2 ^ (64 - s)) % M64

/-! ### Byte/word conversions and message padding -/

/-- Big-endian word value of a byte list. -/
def wordBE (bs : List Nat) : Nat := bs.foldl (fun acc b => acc * 256 + b) 0

/-- Little-endian word value of a byte list. -/
def wordLE (bs : List Nat) : Nat := bs.foldr (fun b acc => acc * 256 + b) 0

/-- The `k` big-endian bytes of a word. -/
def bytesOfWordBE (k w : Nat) : List Nat :=
  (List.range k).map (fun i => w / 256 ^ (k - 1 - i) % 256)

/-- The `k` little-endian bytes of a word. -/
def bytesOfWordLE (k w : Nat) : List Nat :=
  (List.range k).map (fun i => w / 256 ^ i % 256)

/-- Structural worker for `chunkList`: `cur` holds the current partial chunk
in reverse order. -/
def chunkGo (n : Nat) : List Nat → List Nat → List (List Nat)
  | [], cur => if cur = [] then [] else [cur.reverse]
  | b :: bs, cur =>
    if cur.length + 1 = n then (cur.reverse ++ [b]) :: chunkGo n bs []
    else chunkGo n bs (b :: cur)

/-- Split a list into chunks of `n` elements (last chunk may be short). -/
def chunkList (n : Nat) (l : List Nat) : List (List Nat) :=
  chunkGo n l []

/-- Merkle–Damgård padding: append byte `0x80`, zero bytes up to
`blockLen - lenBytes (mod blockLen)`, then the bit length of the message in a
`lenBytes`-byte field (little-endian for MD5, big-endian for the SHAs). -/
def padMessage (blockLen lenBytes : Nat) (le : Bool) (msg : List Nat) : List Nat :=
  let L := msg.length
  let z := (2 * blockLen - lenBytes - 1 - L % blockLen) % blockLen
  let lenField := if le then bytesOfWordLE lenBytes (8 * L) else bytesOfWordBE lenBytes (8 * L)
  msg ++ [128] ++ List.replicate z 0 ++ lenField

/-! ### MD5 -/

/-- MD5 sine-derived round constants. -/
def md5K : List Nat := [
  3614090360, 3905402710, 606105819, 3250441966, 4118548399, 1200080426, 2821735955, 4249261313,
  1770035416, 2336552879, 4294925233, 2304563134, 1804603682, 4254626195, 2792965006, 1236535329,
  4129170786, 3225465664, 643717713, 3921069994, 3593408605, 38016083, 3634488961, 3889429448,
  568446438, 3275163606, 4107603335, 1163531501, 2850285829, 4243563512, 1735328473, 2368359562,
  4294588738, 2272392833, 1839030562, 4259657740, 2763975236, 1272893353, 4139469664, 3200236656,
  681279174, 3936430074, 3572445317, 76029189, 3654602809, 3873151461, 530742520, 3299628645,
  4096336452, 1126891415, 2878612391, 4237533241, 1700485571, 2399980690, 4293915773, 2240044497,
  1873313359, 4264355552, 2734768916, 1309151649, 4149444226, 3174756917, 718787259, 3951481745]

/-- MD5 per-round left-rotation amounts. -/
def md5S : List Nat := [
  7, 12, 17, 22, 7, 12, 17, 22, 7, 12, 17, 22, 7, 12, 17, 22,
  5, 9, 14, 20, 5, 9, 14, 20, 5, 9, 14, 20, 5, 9, 14, 20,
  4, 11, 16, 23, 4, 11, 16, 23, 4, 11, 16, 23, 4, 11, 16, 23,
  6, 10, 15, 21, 6, 10, 15, 21, 6, 10, 15, 21, 6, 10, 15, 21]

/-- One MD5 round on state `[a, b, c, d]` with message words `m`. -/
def md5Round (m : List Nat) (st : List Nat) (i : Nat) : List Nat :=
  match st with
  | [a, b, c, d] =>
    let f :=
      if i < 16 then Nat.lor (Nat.land b c) (Nat.land (not32 b) d)
      else if i < 32 then Nat.lor (Nat.land d b) (Nat.land (not32 d) c)
      else if i < 48 then Nat.xor (Nat.xor b c) d
      else Nat.xor c (Nat.lor b (not32 d))
    let g :=
      if i < 16 then i
      else if i < 32 then (5 * i + 1) % 16
      else if i < 48 then (3 * i + 5) % 16
      else 7 * i % 16
    let t := (f + a + md5K.getD i 0 + m.getD g 0) % M32
    [d, a32 b (rotl32 t (md5S.getD i 0)), b, c]
  | _ => st

/-- MD5 compression of one 64-byte block into the running state. -/
def md5Block (st : List Nat) (block : List Nat) : List Nat :=
  let m := (chunkList 4 block).map wordLE
  let r := (List.range 64).foldl (md5Round m) st
  List.zipWith a32 st r

/-- MD5 digest (16 bytes) of a byte list. -/
def md5Bytes (msg : List Nat) : List Nat :=
  let st0 : List Nat := [1732584193, 4023233417, 2562383102, 271733878]
  let st := (chunkList 64 (padMessage 64 8 true msg)).foldl md5Block st0
  st.flatMap (bytesOfWordLE 4)

/-! ### SHA-1 -/

/-- SHA-1 message schedule: extend 16 words to 80.  The accumulator keeps the
words most-recent-first, so `W i - 3` is at index 2, `W i - 8` at 7,
`W i - 14` at 13 and `W i - 16` at 15. -/
def sha1Schedule (ws : List Nat) : List Nat :=
  ((List.range 64).foldl
    (fun w _ =>
      rotl32 (Nat.xor (Nat.xor (w.getD 2 0) (w.getD 7 0))
                      (Nat.xor (w.getD 13 0) (w.getD 15 0))) 1 :: w)
    ws.reverse).reverse

/-- One SHA-1 round on state `[a, b, c, d, e]` with schedule word `wi`. -/
def sha1Round (st : List Nat) (iw : Nat × Nat) : List Nat :=
  match st with
  | [a, b, c, d, e] =>
    let i := iw.1
    let wi := iw.2
    let f :=
      if i < 20 then Nat.lor (Nat.land b c) (Nat.land (not32 b) d)
      else if i < 40 then Nat.xor (Nat.xor b c) d
      else if i < 60 then Nat.lor (Nat.lor (Nat.land b c) (Nat.land b d)) (Nat.land c d)
      else Nat.xor (Nat.xor b c) d
    let k :=
      if i < 20 then 1518500249
      else if i < 40 then 1859775393
      else if i < 60 then 2400959708
      else 3395469782
    let t := (rotl32 a 5 + f + e + k + wi) % M32
    [t, a, rotl32 b 30, c, d]
  | _ => st

/-- SHA-1 compression of one 64-byte block into the running state. -/
def sha1Block (st : List Nat) (block : List Nat) : List Nat :=
  let w := sha1Schedule ((chunkList 4 block).map wordBE)
  let r := ((List.range 80).zip w).foldl sha1Round st
  List.zipWith a32 st r

/-- SHA-1 digest (20 bytes) of a byte list. -/
def sha1Bytes (msg : List Nat) : List Nat :=
  let st0 : List Nat := [1732584193, 4023233417, 2562383102, 271733878, 3285377520]
  let st := (chunkList 64 (padMessage 64 8 false msg)).foldl sha1Block st0
  st.flatMap (bytesOfWordBE 4)

/-! ### SHA-256 -/

/-- SHA-256 round constants (fractional cube roots of the first 64 primes). -/
def sha256K : List Nat := [
  1116352408, 1899447441, 3049323471, 3921009573, 961987163, 1508970993,
  2453635748, 2870763221, 3624381080, 310598401, 607225278, 1426881987,
  1925078388, 2162078206, 2614888103, 3248222580, 3835390401, 4022224774,
  264347078, 604807628, 770255983, 1249150122, 1555081692, 1996064986,
  2554220882, 2821834349, 2952996808, 3210313671, 3336571891, 3584528711,
  113926993, 338241895, 666307205, 773529912, 1294757372, 1396182291,
  1695183700, 1986661051, 2177026350, 2456956037, 2730485921, 2820302411,
  3259730800, 3345764771, 3516065817, 3600352804, 4094571909, 275423344,
  430227734, 506948616, 659060556, 883997877, 958139571, 1322822218,
  1537002063, 1747873779, 1955562222, 2024104815, 2227730452, 2361852424,
  2428436474, 2756734187, 3204031479, 3329325298]

/-- SHA-256 small sigma 0. -/
def ssig0 (x : Nat) : Nat := Nat.xor (Nat.xor (rotr32 x 7) (rotr32 x 18)) (x % M32 / 8)

/-- SHA-256 small sigma 1. -/
def ssig1 (x : Nat) : Nat := Nat.xor (Nat.xor (rotr32 x 17) (rotr32 x 19)) (x % M32 / 1024)

/-- SHA-256 big sigma 0. -/
def bsig0 (x : Nat) : Nat := Nat.xor (Nat.xor (rotr32 x 2) (rotr32 x 13)) (rotr32 x 22)

/-- SHA-256 big sigma 1. -/
def bsig1 (x : Nat) : Nat := Nat.xor (Nat.xor (rotr32 x 6) (rotr32 x 11)) (rotr32 x 25)

/-- SHA-256 message schedule: extend 16 words to 64 (accumulator is kept
most-recent-first, so `W i - 2` is at index 1, `W i - 7` at 6,
`W i - 15` at 14 and `W i - 16` at 15). -/
def sha256Schedule (ws : List Nat) : List Nat :=
  ((List.range 48).foldl
    (fun w _ =>
      (ssig1 (w.getD 1 0) + w.getD 6 0 + ssig0 (w.getD 14 0) + w.getD 15 0) % M32 :: w)
    ws.reverse).reverse

/-- One SHA-256 round on state `[a, b, c, d, e, f, g, h]` with round
constant `kw.1` and schedule word `kw.2`. -/
def sha256Round (st : List Nat) (kw : Nat × Nat) : List Nat :=
  match st with
  | [a, b, c, d, e, f, g, h] =>
    let ch := Nat.xor (Nat.land e f) (Nat.land (not32 e) g)
    let maj := Nat.xor (Nat.xor (Nat.land a b) (Nat.land a c)) (Nat.land b c)
    let t1 := (h + bsig1 e + ch + kw.1 + kw.2) % M32
    let t2 := (bsig0 a + maj) % M32
    [a32 t1 t2, a, b, c, a32 d t1, e, f, g]
  | _ => st

/-- SHA-256 compression of one 64-byte block into the running state. -/
def sha256Block (st : List Nat) (block : List Nat) : List Nat :=
  let w := sha256Schedule ((chunkList 4 block).map wordBE)
  let r := (sha256K.zip w).foldl sha256Round st
  List.zipWith a32 st r

/-- SHA-256 digest (32 bytes) of a byte list. -/
def sha256Bytes (msg : List Nat) : List Nat :=
  let st0 : List Nat := [1779033703, 3144134277, 1013904242, 2773480762,
    1359893119, 2600822924, 528734635, 1541459225]
  let st := (chunkList 64 (padMessage 64 8 false msg)).foldl sha256Block st0
  st.flatMap (bytesOfWordBE 4)

/-! ### SHA-512 -/

/-- SHA-512 round constants (fractional cube roots of the first 80 primes,
64-bit). -/
def sha512K : List Nat := [
  4794697086780616226, 8158064640168781261, 13096744586834688815, 16840607885511220156,
  4131703408338449720, 6480981068601479193, 10538285296894168987, 12329834152419229976,
  15566598209576043074, 1334009975649890238, 2608012711638119052, 6128411473006802146,
  8268148722764581231, 9286055187155687089, 11230858885718282805, 13951009754708518548,
  16472876342353939154, 17275323862435702243, 1135362057144423861, 2597628984639134821,
  3308224258029322869, 5365058923640841347, 6679025012923562964, 8573033837759648693,
  10970295158949994411, 12119686244451234320, 12683024718118986047, 13788192230050041572,
  14330467153632333762, 15395433587784984357, 489312712824947311, 1452737877330783856,
  2861767655752347644, 3322285676063803686, 5560940570517711597, 5996557281743188959,
  7280758554555802590, 8532644243296465576, 9350256976987008742, 10552545826968843579,
  11727347734174303076, 12113106623233404929, 14000437183269869457, 14369950271660146224,
  15101387698204529176, 15463397548674623760, 17586052441742319658, 1182934255886127544,
  1847814050463011016, 2177327727835720531, 2830643537854262169, 3796741975233480872,
  4115178125766777443, 5681478168544905931, 6601373596472566643, 7507060721942968483,
  8399075790359081724, 8693463985226723168, 9568029438360202098, 10144078919501101548,
  10430055236837252648, 11840083180663258601, 13761210420658862357, 14299343276471374635,
  14566680578165727644, 15097957966210449927, 16922976911328602910, 17689382322260857208,
  500013540394364858, 748580250866718886, 1242879168328830382, 1977374033974150939,
  2944078676154940804, 3659926193048069267, 4368137639120453308, 4836135668995329356,
  5532061633213252278, 6448918945643986474, 6902733635092675308, 7801388544844847127]

/-- SHA-512 small sigma 0. -/
def ssig0w (x : Nat) : Nat := Nat.xor (Nat.xor (rotr64 x 1) (rotr64 x 8)) (x % M64 / 128)

/-- SHA-512 small sigma 1. -/
def ssig1w (x : Nat) : Nat := Nat.xor (Nat.xor (rotr64 x 19) (rotr64 x 61)) (x % M64 / 64)

/-- SHA-512 big sigma 0. -/
def bsig0w (x : Nat) : Nat := Nat.xor (Nat.xor (rotr64 x 28) (rotr64 x 34)) (rotr64 x 39)

/-- SHA-512 big sigma 1. -/
def bsig1w (x : Nat) : Nat := Nat.xor (Nat.xor (rotr64 x 14) (rotr64 x 18)) (rotr64 x 41)

/-- SHA-512 message schedule: extend 16 words to 80 (accumulator kept
most-recent-first as for SHA-256). -/
def sha512Schedule (ws : List Nat) : List Nat :=
  ((List.range 64).foldl
    (fun w _ =>
      (ssig1w (w.getD 1 0) + w.getD 6 0 + ssig0w (w.getD 14 0) + w.getD 15 0) % M64 :: w)
    ws.reverse).reverse

/-- One SHA-512 round on state `[a, b, c, d, e, f, g, h]`. -/
def sha512Round (st : List Nat) (kw : Nat × Nat) : List Nat :=
  match st with
  | [a, b, c, d, e, f, g, h] =>
    let ch := Nat.xor (Nat.land e f) (Nat.land (not64 e) g)
    let maj := Nat.xor (Nat.xor (Nat.land a b) (Nat.land a c)) (Nat.land b c)
    let t1 := (h + bsig1w e + ch + kw.1 + kw.2) % M64
    let t2 := (bsig0w a + maj) % M64
    [a64 t1 t2, a, b, c, a64 d t1, e, f, g]
  | _ => st

/-- SHA-512 compression of one 128-byte block into the running state. -/
def sha512Block (st : List Nat) (block : List Nat) : List Nat :=
  let w := sha512Schedule ((chunkList 8 block).map wordBE)
  let r := (sha512K.zip w).foldl sha512Round st
  List.zipWith a64 st r

/-- SHA-512 digest (64 bytes) of a byte list. -/
def sha512Bytes (msg : List Nat) : List Nat :=
  let st0 : List Nat := [7640891576956012808, 13503953896175478587, 4354685564936845355,
    11912009170470909681, 5840696475078001361, 11170449401992604703,
    2270897969802886507, 6620516959819538809]
  let st := (chunkList 128 (padMessage 128 16 false msg)).foldl sha512Block st0
  st.flatMap (bytesOfWordBE 8)

/-! ### hashlib, os.path.splitext, and `anonymize_file_name` -/

/-- Model of `hashlib.new(algorithm, data).digest()`: the digest bytes for one of the
four algorithm names the CLI exposes, or `none` for any other name (where
`hashlib.new` raises `ValueError`). -/
def hashlibNew (algorithm : PyStr) (data : List Nat) : Option (List Nat) :=
  if algorithm = pyStr "md5" then some (md5Bytes data)
  else if algorithm = pyStr "sha1" then some (sha1Bytes data)
  else if algorithm = pyStr "sha256" then some (sha256Bytes data)
  else if algorithm = pyStr "sha512" then some (sha512Bytes data)
  else none

/-- The algorithm names accepted by the CLI (`argparse` choices). -/
def supportedAlgorithms : List PyStr :=
  [pyStr "md5", pyStr "sha1", pyStr "sha256", pyStr "sha512"]

/-- Python `str.rfind`: index of the last occurrence of code point `c` in
`p`, or `-1` when absent. -/
def rfind (p : PyStr) (c : Nat) : Int :=
  match p with
  | [] => -1
  | a :: rest =>
    let r := rfind rest c
    if r ≥ 0 then r + 1
    else if a = c then 0 else -1

/-- POSIX `os.path.splitext` (CPython `genericpath._splitext` with
`sep = 47`, no altsep, `extsep = 46`): split at the last dot that lies after
the last path separator, unless every character between the separator and
that dot is itself a dot (so names like a leading-dot file keep an empty
extension).  Returns `(root, extension)`. -/
def splitext (p : PyStr) : PyStr × PyStr :=
  if rfind p 46 > rfind p 47 then
    if (List.range ((rfind p 46).toNat - (rfind p 47 + 1).toNat)).all
        (fun k => p.getD ((rfind p 47 + 1).toNat + k) 0 = 46) then (p, [])
    else (p.take (rfind p 46).toNat, p.drop (rfind p 46).toNat)
  else (p, [])

/-- The function `anonymize_file_name(file_name, algorithm, prefix)` of src/main.py:
hash the UTF-8 bytes of the full name, hex-encode, keep the
`os.path.splitext` extension, and return prefix ++ digest ++ extension.
Any exception (UnicodeEncodeError from `.encode`, ValueError from
`hashlib.new`) is caught, logged and turned into the `None` sentinel. -/
def anonymize_file_name (file_name algorithm pfx : PyStr) : Option PyStr :=
  match utf8Encode file_name with
  | none => none
  | some data =>
    match hashlibNew algorithm data with
    | none => none
    | some digest =>
      let hashed_name := hexOfBytes digest
      let file_extension := (splitext file_name).2
      some (pfx ++ hashed_name ++ file_extension)

/-! ### Filesystem model and `process_directory` -/

/-- Kind of a directory child, classified by the two behaviours that matter
here: `file` is an entry for which `os.path.isfile` holds (a regular file,
or a symlink resolving to one), eligible for renaming and silently replaced
when it is the target of a rename; `dir` is a directory, for which a rename
onto it fails with `OSError`; `special` is any other entry (symlink not
resolving to a regular file, fifo, device, socket) — `os.path.isfile` is
false for it, but POSIX `rename(2)` atomically replaces it when it is the
target of a rename. -/
inductive EntryKind where
  | file : EntryKind
  | dir : EntryKind
  | special : EntryKind
deriving DecidableEq

/-- An immediate child of the target directory: its name, its kind, and its
content bytes (meaningful for regular files). -/
structure FSEntry where
  name : PyStr
  kind : EntryKind
  content : List Nat
deriving DecidableEq

/-- The children of the directory.  A real directory has pairwise-distinct child
names (`List.Nodup` on the names below). -/
abbrev FS := List FSEntry

/-- Child names of the directory (`os.listdir` order is the list order). -/
def fsNames (fs : FS) : List PyStr := fs.map (fun e => e.name)

/-- Entry with the given name, if any. -/
def lookupFS (fs : FS) (n : PyStr) : Option FSEntry :=
  fs.find? (fun e => decide (e.name = n))

/-- Model of `os.path.isfile(os.path.join(directory, n))`. -/
def isfileFS (fs : FS) (n : PyStr) : Bool :=
  match lookupFS fs n with
  | some e => e.kind = EntryKind.file
  | none => false

/-- Model of `os.rename(old, neu)` within one directory, POSIX semantics plus an
abstract environment predicate `rOk` for failures the filesystem state does
not determine (permissions, I/O errors).  `none` models a raised `OSError`:
the source is missing, the target is an existing directory, or `rOk`
refuses.  Renaming onto any existing non-directory target (regular file,
symlink, fifo, device) atomically replaces it, as `rename(2)` does;
renaming an entry to its own name succeeds and changes nothing. -/
def renameFS (rOk : PyStr → PyStr → Bool) (fs : FS) (old neu : PyStr) : Option FS :=
  if ¬ rOk old neu then none
  else
    match lookupFS fs old with
    | none => none
    | some _ =>
      if old = neu then some fs
      else
        match lookupFS fs neu with
        | some t =>
          if t.kind = EntryKind.dir then none
          else
            some ((fs.filter (fun e => decide (e.name ≠ neu))).map
              (fun e => if e.name = old then ⟨neu, e.kind, e.content⟩ else e))
        | none =>
          some (fs.map (fun e => if e.name = old then ⟨neu, e.kind, e.content⟩ else e))

/-- The function `is_valid_directory` of src/main.py: the argument is always a string
here, so only the `os.path.isdir` check remains; it is abstracted as the
boolean `isDir` of the run. -/
def is_valid_directory (isDir : Bool) : Bool := isDir

/-- The body of the `for` loop of `process_directory` for one name from the
`os.listdir` snapshot: skip it unless `os.path.isfile` holds now; skip when
`anonymize_file_name` returned the `None` sentinel or an empty string (the
Python truthiness test `if anonymized_name:`); on a dry run only log; else
rename, with any `OSError`/`Exception` caught so the loop continues. -/
def processFile (rOk : PyStr → PyStr → Bool) (fs : FS)
    (file_name algorithm pfx : PyStr) (dry_run : Bool) : FS :=
  if isfileFS fs file_name then
    match anonymize_file_name file_name algorithm pfx with
    | none => fs
    | some anonymized_name =>
      if anonymized_name = [] then fs
      else if dry_run then fs
      else
        match renameFS rOk fs file_name anonymized_name with
        | some fs2 => fs2
        | none => fs
  else fs

/-- The body of `process_directory` before its outer catch-all handler: validate the
directory (early `return` when invalid), take the `os.listdir` snapshot
(`listdirOk = false` models `os.listdir` itself raising, e.g. the directory
vanishing between check and listing), then fold the per-file step over the
snapshot, threading the filesystem state. -/
def process_directory_body (rOk : PyStr → PyStr → Bool) (listdirOk : Bool)
    (isDir : Bool) (fs : FS) (algorithm pfx : PyStr) (dry_run : Bool) :
    Except PyStr FS :=
  if ¬ is_valid_directory isDir then Except.ok fs
  else if ¬ listdirOk then Except.error (pyStr "OSError")
  else Except.ok ((fsNames fs).foldl
    (fun cur n => processFile rOk cur n algorithm pfx dry_run) fs)

/-- The function `process_directory` of src/main.py: the body wrapped in the outer
`try/except Exception` that logs any escaped error and returns normally.
The value is the final directory state; `Except.error` is unreachable, which
is exactly the claim that the function never propagates an exception. -/
def process_directory (rOk : PyStr → PyStr → Bool) (listdirOk : Bool)
    (isDir : Bool) (fs : FS) (algorithm pfx : PyStr) (dry_run : Bool) :
    Except PyStr FS :=
  match process_directory_body rOk listdirOk isDir fs algorithm pfx dry_run with
  | Except.ok fs2 => Except.ok fs2
  | Except.error _ => Except.ok fs

/-- The directory state `process_directory` leaves behind. -/
def runDirectory (rOk : PyStr → PyStr → Bool) (listdirOk : Bool)
    (isDir : Bool) (fs : FS) (algorithm pfx : PyStr) (dry_run : Bool) : FS :=
  match process_directory rOk listdirOk isDir fs algorithm pfx dry_run with
  | Except.ok fs2 => fs2
  | Except.error _ => fs

/-- The function `main` of src/main.py, after argument parsing and log configuration:
return exit code 1 when `is_valid_directory` fails (before any file is
touched), else run `process_directory` and return 0.  The result pairs the
exit code with the final directory state. -/
def mainRun (rOk : PyStr → PyStr → Bool) (listdirOk : Bool) (isDir : Bool)
    (fs : FS) (algorithm pfx : PyStr) (dry_run : Bool) : Nat × FS :=
  if ¬ is_valid_directory isDir then (1, fs)
  else (0, runDirectory rOk listdirOk isDir fs algorithm pfx dry_run)

/-! ### Claim-comparison definitions and per-entry outcome -/

/-- The extension as one claim describes it, written from the words of the
claim (not from the source): the substring of `n` from the final dot
(inclusive), or empty if `n` contains no dot.  Compared against `splitext`
below. -/
def claimedExtension (n : PyStr) : PyStr :=
  let d := rfind n 46
  if d ≥ 0 then n.drop d.toNat else []

/-- The extension rule the code actually implements, written from the
words of the amended claim: the substring from the final dot, provided that dot
lies after the last path separator and at least one character strictly
between the separator and that dot is not itself a dot; otherwise empty. -/
def amendedExtension (n : PyStr) : PyStr :=
  if rfind n 46 > rfind n 47 ∧ ∃ j : Fin n.length,
      rfind n 47 < ((j : Nat) : Int) ∧ ((j : Nat) : Int) < rfind n 46 ∧ n.get j ≠ 46 then
    n.drop (rfind n 46).toNat
  else []

/-- What one iteration of the `process_directory` loop does to a regular
file considered in isolation: the new name if the file will actually be
renamed (anonymization succeeded with a truthy name and the environment
lets the rename through), `none` if the entry is skipped or the rename
fails.  Used to state the per-file isolation claims. -/
def renameOutcome (rOk : PyStr → PyStr → Bool) (algorithm pfx : PyStr)
    (e : FSEntry) : Option PyStr :=
  if e.kind = EntryKind.file then
    (anonymize_file_name e.name algorithm pfx).bind
      (fun t => if t ≠ [] ∧ rOk e.name t = true then some t else none)
  else none

/-- Apply the per-entry outcome to an entry. -/
def applyOutcome (rOk : PyStr → PyStr → Bool) (algorithm pfx : PyStr)
    (e : FSEntry) : FSEntry :=
  match renameOutcome rOk algorithm pfx e with
  | some t => ⟨t, e.kind, e.content⟩
  | none => e

/-- Intermediate state of the walk: entries whose original name is in
`done` already carry their outcome, the rest are untouched. -/
def mapDone (rOk : PyStr → PyStr → Bool) (algorithm pfx : PyStr)
    (done : List PyStr) (fs0 : FS) : FS :=
  fs0.map (fun e => if e.name ∈ done then applyOutcome rOk algorithm pfx e else e)

/-! ### Validation of the hash implementations against published vectors -/

set_option maxRecDepth 1000000

theorem md5_vector_abc :
    hexOfBytes (md5Bytes (pyStr "abc")) = pyStr "900150983cd24fb0d6963f7d28e17f72" := by
  decide

theorem md5_vector_empty :
    hexOfBytes (md5Bytes []) = pyStr "d41d8cd98f00b204e9800998ecf8427e" := by
  decide

theorem sha1_vector_abc :
    hexOfBytes (sha1Bytes (pyStr "abc")) = pyStr "a9993e364706816aba3e25717850c26c9cd0d89d" := by
  decide

theorem sha256_vector_abc :
    hexOfBytes (sha256Bytes (pyStr "abc")) =
      pyStr "ba7816bf8f01cfea414140de5dae2223b00361a396177a9cb410ff61f20015ad" := by
  decide

theorem sha256_vector_two_blocks :
    hexOfBytes (sha256Bytes (pyStr "abcdbcdecdefdefgefghfghighijhijkijkljklmklmnlmnomnopnopq")) =
      pyStr "248d6a61d20638b8e5c026930c3e6039a33ce45964ff2167f6ecedd419db06c1" := by
  decide

theorem sha512_vector_abc :
    hexOfBytes (sha512Bytes (pyStr "abc")) =
      pyStr "ddaf35a193617abacc417349ae20413112e6fa4e89a97ea20a9eeee64b55d39a2192992a274fc1a836ba3c23a3feebbd454d4423643ce80e2a9ac94fa54ca49f" := by
  decide

/-! ### Helper lemmas -/

theorem hashlibNew_md5 (data : List Nat) :
    hashlibNew (pyStr "md5") data = some (md5Bytes data) := by
  unfold hashlibNew
  rw [if_pos rfl]

theorem hashlibNew_sha1 (data : List Nat) :
    hashlibNew (pyStr "sha1") data = some (sha1Bytes data) := by
  unfold hashlibNew
  rw [if_neg (by decide), if_pos rfl]

theorem hashlibNew_sha256 (data : List Nat) :
    hashlibNew (pyStr "sha256") data = some (sha256Bytes data) := by
  unfold hashlibNew
  rw [if_neg (by decide), if_neg (by decide), if_pos rfl]

theorem hashlibNew_sha512 (data : List Nat) :
    hashlibNew (pyStr "sha512") data = some (sha512Bytes data) := by
  unfold hashlibNew
  rw [if_neg (by decide), if_neg (by decide), if_neg (by decide), if_pos rfl]

theorem supported_hashlib (a : PyStr) (ha : a ∈ supportedAlgorithms) (data : List Nat) :
    ∃ d, hashlibNew a data = some d := by
  simp only [supportedAlgorithms, List.mem_cons, List.not_mem_nil, or_false] at ha
  rcases ha with h | h | h | h <;> subst h
  · exact ⟨_, hashlibNew_md5 data⟩
  · exact ⟨_, hashlibNew_sha1 data⟩
  · exact ⟨_, hashlibNew_sha256 data⟩
  · exact ⟨_, hashlibNew_sha512 data⟩

theorem hexChar_lower (m : Nat) (h : m < 16) :
    (48 ≤ hexChar m ∧ hexChar m ≤ 57) ∨ (97 ≤ hexChar m ∧ hexChar m ≤ 102) := by
  unfold hexChar
  split <;> omega

theorem hexOfBytes_lower (bs : List Nat) :
    ∀ c ∈ hexOfBytes bs, (48 ≤ c ∧ c ≤ 57) ∨ (97 ≤ c ∧ c ≤ 102) := by
  intro c hc
  simp only [hexOfBytes, List.mem_flatMap, List.mem_cons, List.not_mem_nil, or_false] at hc
  obtain ⟨b, _, hc | hc⟩ := hc <;> subst hc <;> exact hexChar_lower _ (by omega)

/-! ### C1: output structure of `anonymize_file_name` -/

/-- C1: for every UTF-8 encodable file name `n`, each supported algorithm,
and every prefix `p`, `anonymize_file_name` returns exactly `p`, then the
lowercase hex-encoded digest of the UTF-8 bytes of the full original name,
then the extension of `n`; the digest part uses only the lowercase hex
alphabet. -/
theorem anonymize_output_structure (n : PyStr) (data : List Nat) (p : PyStr)
    (h : utf8Encode n = some data) :
    anonymize_file_name n (pyStr "md5") p =
      some (p ++ hexOfBytes (md5Bytes data) ++ (splitext n).2) ∧
    anonymize_file_name n (pyStr "sha1") p =
      some (p ++ hexOfBytes (sha1Bytes data) ++ (splitext n).2) ∧
    anonymize_file_name n (pyStr "sha256") p =
      some (p ++ hexOfBytes (sha256Bytes data) ++ (splitext n).2) ∧
    anonymize_file_name n (pyStr "sha512") p =
      some (p ++ hexOfBytes (sha512Bytes data) ++ (splitext n).2) ∧
    (∀ d : List Nat, ∀ c ∈ hexOfBytes d, (48 ≤ c ∧ c ≤ 57) ∨ (97 ≤ c ∧ c ≤ 102)) := by
  refine ⟨?_, ?_, ?_, ?_, fun d => hexOfBytes_lower d⟩ <;>
    simp [anonymize_file_name, h, hashlibNew_md5, hashlibNew_sha1,
      hashlibNew_sha256, hashlibNew_sha512]

/-- Witness for C1 at the scenario given in the spec: `report.txt` with SHA-256 and
the default prefix maps to the concrete anonymized name. -/
theorem anonymize_output_structure_witness :
    anonymize_file_name (pyStr "report.txt") (pyStr "sha256") (pyStr "anonymized_") =
      some (pyStr "anonymized_eafb4aff19bc57c3106afe5e1d4aef0b6422e0de242745e6e94f7d5733ab1cc1.txt") := by
  have h := anonymize_output_structure (pyStr "report.txt")
    [114, 101, 112, 111, 114, 116, 46, 116, 120, 116] (pyStr "anonymized_") (by decide)
  exact h.2.2.1.trans (by decide)

/-! ### C7: determinism -/

/-- C7: `anonymize_file_name` is a pure function of its three arguments:
two calls with equal name, algorithm and prefix yield identical output (it
takes no state, so there is no side effect or randomness to vary it). -/
theorem anonymize_deterministic (n1 a1 p1 n2 a2 p2 : PyStr)
    (hn : n1 = n2) (ha : a1 = a2) (hp : p1 = p2) :
    anonymize_file_name n1 a1 p1 = anonymize_file_name n2 a2 p2 := by
  rw [hn, ha, hp]

/-- Witness for C7 at a concrete input. -/
theorem anonymize_deterministic_witness :
    anonymize_file_name (pyStr "report.txt") (pyStr "sha256") (pyStr "anonymized_") =
      anonymize_file_name (pyStr "report.txt") (pyStr "sha256") (pyStr "anonymized_") :=
  anonymize_deterministic _ _ _ _ _ _ rfl rfl rfl

/-! ### C8: prefix property -/

/-- C8: for every encodable name, supported algorithm and prefix `p`, the
output starts with exactly `p`, appended verbatim. -/
theorem anonymize_starts_with_pfx (n : PyStr) (data : List Nat) (a p : PyStr)
    (he : utf8Encode n = some data) (ha : a ∈ supportedAlgorithms) :
    ∃ rest, anonymize_file_name n a p = some (p ++ rest) := by
  obtain ⟨d, hd⟩ := supported_hashlib a ha data
  refine ⟨hexOfBytes d ++ (splitext n).2, ?_⟩
  simp [anonymize_file_name, he, hd, List.append_assoc]

/-- Witness for C8 at a concrete input. -/
theorem anonymize_starts_with_pfx_witness :
    ∃ rest, anonymize_file_name (pyStr "report.txt") (pyStr "md5") (pyStr "anonymized_") =
      some (pyStr "anonymized_" ++ rest) :=
  anonymize_starts_with_pfx (pyStr "report.txt")
    [114, 101, 112, 111, 114, 116, 46, 116, 120, 116] (pyStr "md5") (pyStr "anonymized_")
    (by decide) (by decide)

/-! ### Lookup and name lemmas for the filesystem model -/

theorem name_inj {fs : FS} (hnd : (fsNames fs).Nodup) {e1 e2 : FSEntry}
    (h1 : e1 ∈ fs) (h2 : e2 ∈ fs) (hn : e1.name = e2.name) : e1 = e2 := by
  unfold fsNames at hnd
  exact List.inj_on_of_nodup_map hnd h1 h2 hn

theorem lookupFS_mem {fs : FS} {n : PyStr} {e : FSEntry} (h : lookupFS fs n = some e) :
    e ∈ fs ∧ e.name = n := by
  unfold lookupFS at h
  exact ⟨List.mem_of_find?_eq_some h, by simpa using List.find?_some h⟩

theorem lookupFS_none {fs : FS} {n : PyStr} (h : lookupFS fs n = none) :
    ∀ e ∈ fs, e.name ≠ n := by
  intro e he
  have := List.find?_eq_none.mp h e he
  simpa using this

theorem lookupFS_none_of (fs : FS) (n : PyStr) (h : ∀ e ∈ fs, e.name ≠ n) :
    lookupFS fs n = none := by
  unfold lookupFS
  exact List.find?_eq_none.mpr (fun e he => by simpa using h e he)

theorem find?_map_of_unique {f : FSEntry → FSEntry} {l : List FSEntry} {n : PyStr}
    {e0 : FSEntry} (he : e0 ∈ l) (hname : (f e0).name = n)
    (huniq : ∀ e ∈ l, (f e).name = n → e = e0) :
    lookupFS (l.map f) n = some (f e0) := by
  induction l with
  | nil => cases he
  | cons a l ih =>
    unfold lookupFS
    rw [List.map_cons]
    by_cases hpa : (f a).name = n
    · have ha0 : a = e0 := huniq a (List.mem_cons_self a l) hpa
      rw [List.find?_cons_of_pos _ (by simpa using hpa), ha0]
    · rcases List.mem_cons.mp he with rfl | he2
      · exact absurd hname hpa
      · rw [List.find?_cons_of_neg _ (by simpa using hpa)]
        exact ih he2 (fun e hel hn => huniq e (List.mem_cons_of_mem a hel) hn)

theorem isfileFS_spec {fs : FS} {n : PyStr} (h : isfileFS fs n = true) :
    ∃ src, lookupFS fs n = some src ∧ src.kind = EntryKind.file := by
  unfold isfileFS at h
  cases hl : lookupFS fs n with
  | none => simp [hl] at h
  | some src =>
    simp only [hl, decide_eq_true_eq] at h
    exact ⟨src, rfl, h⟩

theorem renameOutcome_some_iff {rOk : PyStr → PyStr → Bool} {a p : PyStr}
    {e : FSEntry} {t : PyStr} :
    renameOutcome rOk a p e = some t ↔
    e.kind = EntryKind.file ∧ anonymize_file_name e.name a p = some t ∧
      t ≠ [] ∧ rOk e.name t = true := by
  unfold renameOutcome
  by_cases hf : e.kind = EntryKind.file
  · rw [if_pos hf]
    cases hano : anonymize_file_name e.name a p with
    | none => simp [hf]
    | some u =>
      rw [Option.some_bind]
      by_cases hc : u ≠ [] ∧ rOk e.name u = true
      · rw [if_pos hc]
        constructor
        · intro h
          injection h with h2
          subst h2
          exact ⟨hf, rfl, hc.1, hc.2⟩
        · intro ⟨_, h2, _, _⟩
          injection h2 with h3
          rw [h3]
      · rw [if_neg hc]
        constructor
        · intro h; cases h
        · intro ⟨_, h2, h3, h4⟩
          injection h2 with h5
          exact absurd ⟨h5 ▸ h3, h5 ▸ h4⟩ hc
  · rw [if_neg hf]
    simp [hf]

theorem applyOutcome_of_none {rOk : PyStr → PyStr → Bool} {a p : PyStr} {e : FSEntry}
    (h : renameOutcome rOk a p e = none) : applyOutcome rOk a p e = e := by
  unfold applyOutcome
  rw [h]

theorem applyOutcome_of_some {rOk : PyStr → PyStr → Bool} {a p : PyStr} {e : FSEntry}
    {t : PyStr} (h : renameOutcome rOk a p e = some t) :
    applyOutcome rOk a p e = ⟨t, e.kind, e.content⟩ := by
  unfold applyOutcome
  rw [h]

/-! ### Preservation lemmas for the directory walk -/

theorem renameFS_preserves {rOk : PyStr → PyStr → Bool} {fs fs2 : FS} {old neu : PyStr}
    (hnd : (fsNames fs).Nodup)
    (hfile : ∀ e ∈ fs, e.name = old → e.kind = EntryKind.file)
    (h : renameFS rOk fs old neu = some fs2) :
    (fsNames fs2).Nodup ∧ ∀ e ∈ fs, e.kind = EntryKind.dir → e ∈ fs2 := by
  unfold renameFS at h
  by_cases h1 : ¬ rOk old neu = true
  · rw [if_pos h1] at h
    cases h
  · rw [if_neg h1] at h
    cases hlook : lookupFS fs old with
    | none => simp [hlook] at h
    | some src =>
      simp only [hlook] at h
      obtain ⟨hsrcmem, hsrcname⟩ := lookupFS_mem hlook
      by_cases heq : old = neu
      · rw [if_pos heq] at h
        injection h with h2
        subst h2
        exact ⟨hnd, fun e he _ => he⟩
      · rw [if_neg heq] at h
        have hnodup_entries : fs.Nodup := List.Nodup.of_map _ hnd
        cases hlook2 : lookupFS fs neu with
        | none =>
          simp only [hlook2] at h
          injection h with h2
          subst h2
          have hne_neu : ∀ e ∈ fs, e.name ≠ neu := lookupFS_none hlook2
          constructor
          · unfold fsNames
            rw [List.map_map]
            refine List.Nodup.map_on ?_ hnodup_entries
            intro e1 he1 e2 he2 hname
            simp only [Function.comp] at hname
            by_cases h3 : e1.name = old <;> by_cases h4 : e2.name = old
            · exact name_inj hnd he1 he2 (h3.trans h4.symm)
            · rw [if_pos h3, if_neg h4] at hname
              exact absurd hname.symm (hne_neu e2 he2)
            · rw [if_neg h3, if_pos h4] at hname
              exact absurd hname (hne_neu e1 he1)
            · rw [if_neg h3, if_neg h4] at hname
              exact name_inj hnd he1 he2 hname
          · intro e he hdir
            have hne_old : e.name ≠ old := fun hn =>
              EntryKind.noConfusion ((hfile e he hn).symm.trans hdir)
            exact List.mem_map.mpr ⟨e, he, by rw [if_neg hne_old]⟩
        | some tgt =>
          simp only [hlook2] at h
          obtain ⟨htgtmem, htgtname⟩ := lookupFS_mem hlook2
          by_cases htd : tgt.kind = EntryKind.dir
          · rw [if_pos htd] at h
            cases h
          · rw [if_neg htd] at h
            injection h with h2
            subst h2
            have hfilter_sub := List.filter_sublist (l := fs)
              (p := fun e => decide (e.name ≠ neu))
            have hfilter_nd : (fsNames (fs.filter (fun e => decide (e.name ≠ neu)))).Nodup := by
              unfold fsNames
              exact List.Nodup.sublist (hfilter_sub.map _) hnd
            constructor
            · unfold fsNames
              rw [List.map_map]
              refine List.Nodup.map_on ?_ (List.Nodup.sublist hfilter_sub hnodup_entries)
              intro e1 he1 e2 he2 hname
              obtain ⟨he1f, he1p⟩ := List.mem_filter.mp he1
              obtain ⟨he2f, he2p⟩ := List.mem_filter.mp he2
              simp only [Function.comp] at hname
              by_cases h3 : e1.name = old <;> by_cases h4 : e2.name = old
              · exact name_inj hnd he1f he2f (h3.trans h4.symm)
              · rw [if_pos h3, if_neg h4] at hname
                exact absurd hname.symm (by simpa using he2p)
              · rw [if_neg h3, if_pos h4] at hname
                exact absurd hname (by simpa using he1p)
              · rw [if_neg h3, if_neg h4] at hname
                exact name_inj hnd he1f he2f hname
            · intro e he hdir
              have hne_neu : e.name ≠ neu := fun hn => by
                have heq : e = tgt := name_inj hnd he htgtmem (hn.trans htgtname.symm)
                exact htd (heq ▸ hdir)
              have hne_old : e.name ≠ old := fun hn =>
                EntryKind.noConfusion ((hfile e he hn).symm.trans hdir)
              refine List.mem_map.mpr ⟨e, List.mem_filter.mpr ⟨he, by simpa using hne_neu⟩, ?_⟩
              rw [if_neg hne_old]

theorem processFile_preserves (rOk : PyStr → PyStr → Bool) (fs : FS) (n a p : PyStr)
    (d : Bool) (hnd : (fsNames fs).Nodup) :
    (fsNames (processFile rOk fs n a p d)).Nodup ∧
    ∀ e ∈ fs, e.kind = EntryKind.dir → e ∈ processFile rOk fs n a p d := by
  by_cases hif : isfileFS fs n = true
  · cases hano : anonymize_file_name n a p with
    | none =>
      rw [show processFile rOk fs n a p d = fs by simp [processFile, hif, hano]]
      exact ⟨hnd, fun e he _ => he⟩
    | some an =>
      by_cases hemp : an = []
      · rw [show processFile rOk fs n a p d = fs by simp [processFile, hif, hano, hemp]]
        exact ⟨hnd, fun e he _ => he⟩
      · by_cases hd : d = true
        · rw [show processFile rOk fs n a p d = fs by simp [processFile, hif, hano, hemp, hd]]
          exact ⟨hnd, fun e he _ => he⟩
        · obtain ⟨src, hsrc, hsrcf⟩ := isfileFS_spec hif
          obtain ⟨hsrcmem, hsrcname⟩ := lookupFS_mem hsrc
          have hfile : ∀ e ∈ fs, e.name = n → e.kind = EntryKind.file := by
            intro e he hn
            have : e = src := name_inj hnd he hsrcmem (hn.trans hsrcname.symm)
            rw [this]
            exact hsrcf
          cases hren : renameFS rOk fs n an with
          | none =>
            rw [show processFile rOk fs n a p d = fs by
              simp [processFile, hif, hano, hemp, hd, hren]]
            exact ⟨hnd, fun e he _ => he⟩
          | some fs2 =>
            rw [show processFile rOk fs n a p d = fs2 by
              simp [processFile, hif, hano, hemp, hd, hren]]
            exact renameFS_preserves hnd hfile hren
  · rw [show processFile rOk fs n a p d = fs by simp [processFile, hif]]
    exact ⟨hnd, fun e he _ => he⟩

theorem foldl_preserves {P : FS → Prop} (f : FS → PyStr → FS)
    (hstep : ∀ x n, P x → P (f x n)) :
    ∀ ns : List PyStr, ∀ x : FS, P x → P (List.foldl f x ns) := by
  intro ns
  induction ns with
  | nil => intro x h; exact h
  | cons n ns ih => intro x h; exact ih _ (hstep x n h)

/-! ### C2: the extension rule -/

theorem rfind_cons (a : Nat) (rest : PyStr) (c : Nat) :
    rfind (a :: rest) c =
      if rfind rest c ≥ 0 then rfind rest c + 1 else if a = c then 0 else -1 := rfl

theorem rfind_lb (p : PyStr) (c : Nat) : -1 ≤ rfind p c := by
  induction p with
  | nil => simp [rfind]
  | cons a rest ih =>
    rw [rfind_cons]
    split
    · omega
    · split <;> omega

theorem rfind_lt_length (p : PyStr) (c : Nat) : rfind p c < (p.length : Int) := by
  induction p with
  | nil => simp [rfind]
  | cons a rest ih =>
    rw [rfind_cons]
    simp only [List.length_cons]
    push_cast
    split
    · omega
    · split <;> omega

theorem splitext_eq_amended (n : PyStr) : (splitext n).2 = amendedExtension n := by
  by_cases hds : rfind n 46 > rfind n 47
  · have hs := rfind_lb n 47
    have hd := rfind_lt_length n 46
    by_cases hex : ∃ j : Fin n.length,
        rfind n 47 < ((j : Nat) : Int) ∧ ((j : Nat) : Int) < rfind n 46 ∧ n.get j ≠ 46
    · have hall : ¬ ((List.range ((rfind n 46).toNat - (rfind n 47 + 1).toNat)).all
          (fun k => decide (n.getD ((rfind n 47 + 1).toNat + k) 0 = 46)) = true) := by
        obtain ⟨j, hj1, hj2, hj3⟩ := hex
        simp only [List.all_eq_true, List.mem_range, decide_eq_true_eq]
        intro hforall
        have hk := hforall ((j : Nat) - (rfind n 47 + 1).toNat) (by omega)
        rw [show (rfind n 47 + 1).toNat + ((j : Nat) - (rfind n 47 + 1).toNat) = (j : Nat)
          by omega] at hk
        rw [List.getD_eq_getElem?_getD, List.getElem?_eq_getElem j.isLt] at hk
        exact hj3 (by simpa [List.get_eq_getElem] using hk)
      have hL : (splitext n).2 = n.drop (rfind n 46).toNat := by
        unfold splitext
        rw [if_pos hds, if_neg hall]
      have hR : amendedExtension n = n.drop (rfind n 46).toNat := by
        unfold amendedExtension
        rw [if_pos (And.intro hds hex)]
      exact hL.trans hR.symm
    · have hall : (List.range ((rfind n 46).toNat - (rfind n 47 + 1).toNat)).all
          (fun k => decide (n.getD ((rfind n 47 + 1).toNat + k) 0 = 46)) = true := by
        simp only [List.all_eq_true, List.mem_range, decide_eq_true_eq]
        intro k hk
        push_neg at hex
        have hjlt : (rfind n 47 + 1).toNat + k < n.length := by omega
        have := hex ⟨(rfind n 47 + 1).toNat + k, hjlt⟩ (by simp; omega) (by simp; omega)
        rw [List.getD_eq_getElem?_getD, List.getElem?_eq_getElem hjlt]
        simpa [List.get_eq_getElem] using this
      have hL : (splitext n).2 = [] := by
        unfold splitext
        rw [if_pos hds, if_pos hall]
      have hR : amendedExtension n = [] := by
        unfold amendedExtension
        rw [if_neg (fun h => hex h.2)]
      exact hL.trans hR.symm
  · have hL : (splitext n).2 = [] := by
      unfold splitext
      rw [if_neg hds]
    have hR : amendedExtension n = [] := by
      unfold amendedExtension
      rw [if_neg (fun h => hds h.1)]
    exact hL.trans hR.symm

/-- C2 counterexample: the extension rule of the claim fails on the code at the
concrete name `.bashrc`.  The claim says the extension is the substring from
the final dot (here the whole name `.bashrc`) and that the output ends with
it; `os.path.splitext` in the code gives an empty extension for a leading-dot
name, and the output does not end with `.bashrc`. -/
theorem extension_claim_counterexample :
    claimedExtension (pyStr ".bashrc") = pyStr ".bashrc" ∧
    (splitext (pyStr ".bashrc")).2 = [] ∧
    anonymize_file_name (pyStr ".bashrc") (pyStr "md5") (pyStr "anonymized_") =
      some (pyStr "anonymized_85cf9b51417c7cfb8766aa6b56f7edb9") ∧
    List.isSuffixOf (claimedExtension (pyStr ".bashrc"))
      (pyStr "anonymized_85cf9b51417c7cfb8766aa6b56f7edb9") = false := by
  decide

/-- C2 (amended): the extension used by `anonymize_file_name` is the
substring of `n` from the final dot (inclusive) provided that dot comes
after the last path separator and at least one character strictly between
the separator (or the start) and that dot is not itself a dot; otherwise it
is empty.  The output always ends with exactly that extension. -/
theorem extension_rule_amended (n : PyStr) (data : List Nat) (a p : PyStr)
    (he : utf8Encode n = some data) (ha : a ∈ supportedAlgorithms) :
    (splitext n).2 = amendedExtension n ∧
    ∃ stem, anonymize_file_name n a p = some (stem ++ (splitext n).2) := by
  refine ⟨splitext_eq_amended n, ?_⟩
  obtain ⟨d, hd⟩ := supported_hashlib a ha data
  exact ⟨p ++ hexOfBytes d, by simp [anonymize_file_name, he, hd]⟩

/-- Witness for the amended C2 at a concrete leading-dot name. -/
theorem extension_rule_amended_witness :
    (splitext (pyStr ".bashrc")).2 = amendedExtension (pyStr ".bashrc") ∧
    ∃ stem, anonymize_file_name (pyStr ".bashrc") (pyStr "md5") (pyStr "anonymized_") =
      some (stem ++ (splitext (pyStr ".bashrc")).2) :=
  extension_rule_amended (pyStr ".bashrc") [46, 98, 97, 115, 104, 114, 99]
    (pyStr "md5") (pyStr "anonymized_") (by decide) (by decide)

/-! ### C4: dry run mutates nothing -/

theorem processFile_dry (rOk : PyStr → PyStr → Bool) (fs : FS) (n a p : PyStr) :
    processFile rOk fs n a p true = fs := by
  unfold processFile
  rcases h : anonymize_file_name n a p with _ | an <;> simp [h]

/-- C4: with `dry_run` set, `process_directory` performs no rename: the
entries of the directory (names and contents) are returned byte-for-byte
unchanged, whatever the environment does. -/
theorem dry_run_no_mutation (rOk : PyStr → PyStr → Bool) (listdirOk isDir : Bool)
    (fs : FS) (a p : PyStr) :
    process_directory rOk listdirOk isDir fs a p true = Except.ok fs := by
  have hfold : ∀ ns : List PyStr, ∀ cur : FS,
      List.foldl (fun cur n => processFile rOk cur n a p true) cur ns = cur := by
    intro ns
    induction ns with
    | nil => intro cur; rfl
    | cons n ns ih => intro cur; rw [List.foldl_cons, processFile_dry, ih]
  unfold process_directory process_directory_body
  cases isDir <;> cases listdirOk <;> simp [is_valid_directory, hfold]

/-! ### C5: exit codes -/

/-- C5: `main` exits with code 1 and touches no file when the directory is
invalid, and exits with code 0 when the directory is valid, regardless of
what happens to individual files during the run. -/
theorem main_exit_codes (rOk : PyStr → PyStr → Bool) (listdirOk : Bool)
    (fs : FS) (a p : PyStr) (d : Bool) :
    mainRun rOk listdirOk false fs a p d = (1, fs) ∧
    (mainRun rOk listdirOk true fs a p d).1 = 0 := by
  constructor <;> simp [mainRun, is_valid_directory]

/-! ### Characterization of a full non-dry run without name collisions -/

theorem processFile_step (rOk : PyStr → PyStr → Bool) (a p : PyStr) (fs0 : FS)
    (done : List PyStr) (n : PyStr)
    (hnd : (fsNames fs0).Nodup)
    (hfresh : ∀ e ∈ fs0, ∀ t ∈ fsNames fs0, renameOutcome rOk a p e ≠ some t)
    (hdist : ∀ e1 ∈ fs0, ∀ e2 ∈ fs0,
      renameOutcome rOk a p e1 = renameOutcome rOk a p e2 →
      renameOutcome rOk a p e1 = none ∨ e1 = e2)
    (hn : n ∈ fsNames fs0) (hndone : n ∉ done) :
    processFile rOk (mapDone rOk a p done fs0) n a p false =
      mapDone rOk a p (n :: done) fs0 := by
  obtain ⟨e0, he0, hname0⟩ : ∃ e0, e0 ∈ fs0 ∧ e0.name = n := by
    unfold fsNames at hn
    obtain ⟨e0, he0, h⟩ := List.mem_map.mp hn
    exact ⟨e0, he0, h⟩
  have hfe0 : (if e0.name ∈ done then applyOutcome rOk a p e0 else e0) = e0 := by
    rw [if_neg (by rw [hname0]; exact hndone)]
  have hfname : ∀ e ∈ fs0,
      (if e.name ∈ done then applyOutcome rOk a p e else e).name = n → e = e0 := by
    intro e he hfe
    by_cases hdone : e.name ∈ done
    · rw [if_pos hdone] at hfe
      cases hout : renameOutcome rOk a p e with
      | none =>
        rw [applyOutcome_of_none hout] at hfe
        exact absurd (hfe ▸ hdone) hndone
      | some t =>
        rw [applyOutcome_of_some hout] at hfe
        have ht : t = n := hfe
        exact absurd (ht ▸ hout) (hfresh e he n hn)
    · rw [if_neg hdone] at hfe
      exact name_inj hnd he he0 (hfe.trans hname0.symm)
  have hlookup : lookupFS (mapDone rOk a p done fs0) n = some e0 := by
    unfold mapDone
    have h := find?_map_of_unique
      (f := fun e => if e.name ∈ done then applyOutcome rOk a p e else e)
      he0 (by simpa [hfe0] using hname0) hfname
    simpa [hfe0] using h
  have hisfile : isfileFS (mapDone rOk a p done fs0) n =
      decide (e0.kind = EntryKind.file) := by
    unfold isfileFS
    rw [hlookup]
  have hskip : renameOutcome rOk a p e0 = none →
      mapDone rOk a p (n :: done) fs0 = mapDone rOk a p done fs0 := by
    intro hout
    unfold mapDone
    apply List.map_congr_left
    intro e he
    by_cases hen : e.name = n
    · have heq : e = e0 := name_inj hnd he he0 (hen.trans hname0.symm)
      subst heq
      simp [hen, hndone, applyOutcome_of_none hout]
    · by_cases hd2 : e.name ∈ done <;> simp [hd2, hen]
  by_cases hfc : e0.kind = EntryKind.file
  case neg =>
    rw [show processFile rOk (mapDone rOk a p done fs0) n a p false =
        mapDone rOk a p done fs0 by simp [processFile, hisfile, hfc]]
    exact (hskip (by simp [renameOutcome, hfc])).symm
  case pos =>
    cases hano : anonymize_file_name n a p with
    | none =>
      rw [show processFile rOk (mapDone rOk a p done fs0) n a p false =
          mapDone rOk a p done fs0 by simp [processFile, hisfile, hfc, hano]]
      exact (hskip (by simp [renameOutcome, hfc, hname0, hano])).symm
    | some an =>
      by_cases hemp : an = []
      · rw [show processFile rOk (mapDone rOk a p done fs0) n a p false =
            mapDone rOk a p done fs0 by simp [processFile, hisfile, hfc, hano, hemp]]
        exact (hskip (by simp [renameOutcome, hfc, hname0, hano, hemp])).symm
      · by_cases hrok : rOk n an = true
        · have hout : renameOutcome rOk a p e0 = some an := by
            simp [renameOutcome, hfc, hname0, hano, hemp, hrok]
          have hfreshan : an ∉ fsNames fs0 := fun hin => hfresh e0 he0 an hin hout
          have hanne : ¬ (n = an) := fun hc => hfreshan (hc ▸ hn)
          have hlookup2 : lookupFS (mapDone rOk a p done fs0) an = none := by
            apply lookupFS_none_of
            intro x hx
            obtain ⟨e, he, hxe⟩ := List.mem_map.mp hx
            subst hxe
            by_cases hdone : e.name ∈ done
            · rw [if_pos hdone]
              cases hout2 : renameOutcome rOk a p e with
              | none =>
                rw [applyOutcome_of_none hout2]
                intro hc
                exact hfreshan (List.mem_map.mpr ⟨e, he, hc⟩)
              | some t2 =>
                rw [applyOutcome_of_some hout2]
                intro hc
                have ht2 : t2 = an := hc
                have heqo : renameOutcome rOk a p e = renameOutcome rOk a p e0 := by
                  rw [hout2, hout, ht2]
                rcases hdist e he e0 he0 heqo with hnone | heq
                · rw [hout2] at hnone
                  cases hnone
                · subst heq
                  rw [hname0] at hdone
                  exact hndone hdone
            · rw [if_neg hdone]
              intro hc
              exact hfreshan (List.mem_map.mpr ⟨e, he, hc⟩)
          have hren : renameFS rOk (mapDone rOk a p done fs0) n an =
              some ((mapDone rOk a p done fs0).map
                (fun x => if x.name = n then ⟨an, x.kind, x.content⟩ else x)) := by
            unfold renameFS
            rw [if_neg (by simp [hrok])]
            simp only [hlookup]
            rw [if_neg hanne]
            simp only [hlookup2]
          rw [show processFile rOk (mapDone rOk a p done fs0) n a p false =
              (mapDone rOk a p done fs0).map
                (fun x => if x.name = n then ⟨an, x.kind, x.content⟩ else x) by
            simp [processFile, hisfile, hfc, hano, hemp, hren]]
          unfold mapDone
          rw [List.map_map]
          apply List.map_congr_left
          intro e he
          simp only [Function.comp]
          by_cases hen : e.name = n
          · have heq : e = e0 := name_inj hnd he he0 (hen.trans hname0.symm)
            subst heq
            simp [hen, hndone, applyOutcome_of_some hout]
          · have hne0 : e ≠ e0 := fun hc => hen (by rw [hc, hname0])
            by_cases hdone : e.name ∈ done
            · have hnotn : ¬ ((applyOutcome rOk a p e).name = n) := fun hc =>
                hne0 (hfname e he (by rw [if_pos hdone]; exact hc))
              simp [hdone, hnotn]
            · simp [hdone, hen]
        · rw [show processFile rOk (mapDone rOk a p done fs0) n a p false =
              mapDone rOk a p done fs0 by
            simp [processFile, hisfile, hfc, hano, hemp, renameFS, hrok]]
          exact (hskip (by simp [renameOutcome, hfc, hname0, hano, hemp, hrok])).symm

theorem foldl_mapDone (rOk : PyStr → PyStr → Bool) (a p : PyStr) (fs0 : FS)
    (hnd : (fsNames fs0).Nodup)
    (hfresh : ∀ e ∈ fs0, ∀ t ∈ fsNames fs0, renameOutcome rOk a p e ≠ some t)
    (hdist : ∀ e1 ∈ fs0, ∀ e2 ∈ fs0,
      renameOutcome rOk a p e1 = renameOutcome rOk a p e2 →
      renameOutcome rOk a p e1 = none ∨ e1 = e2) :
    ∀ ns done : List PyStr, (∀ m ∈ ns, m ∈ fsNames fs0) → (∀ m ∈ ns, m ∉ done) →
    ns.Nodup →
    List.foldl (fun cur m => processFile rOk cur m a p false)
      (mapDone rOk a p done fs0) ns =
      mapDone rOk a p (ns.reverse ++ done) fs0 := by
  intro ns
  induction ns with
  | nil =>
    intro done _ _ _
    simp
  | cons m ns ih =>
    intro done hmem hdone hnodup
    rw [List.foldl_cons,
      processFile_step rOk a p fs0 done m hnd hfresh hdist
        (hmem m (List.mem_cons_self m ns)) (hdone m (List.mem_cons_self m ns)),
      ih (m :: done) (fun x hx => hmem x (List.mem_cons_of_mem m hx))
        (fun x hx hc => (List.mem_cons.mp hc).elim
          (fun hxm => (List.nodup_cons.mp hnodup).1 (hxm ▸ hx))
          (fun hc2 => hdone x (List.mem_cons_of_mem m hx) hc2))
        (List.nodup_cons.mp hnodup).2,
      List.reverse_cons, List.append_assoc, List.singleton_append]

theorem run_characterization (rOk : PyStr → PyStr → Bool) (fs : FS) (a p : PyStr)
    (hnd : (fsNames fs).Nodup)
    (hfresh : ∀ e ∈ fs, ∀ t ∈ fsNames fs, renameOutcome rOk a p e ≠ some t)
    (hdist : ∀ e1 ∈ fs, ∀ e2 ∈ fs,
      renameOutcome rOk a p e1 = renameOutcome rOk a p e2 →
      renameOutcome rOk a p e1 = none ∨ e1 = e2) :
    runDirectory rOk true true fs a p false = fs.map (applyOutcome rOk a p) := by
  have h0 : mapDone rOk a p [] fs = fs := by
    simp [mapDone]
  have hfold := foldl_mapDone rOk a p fs hnd hfresh hdist (fsNames fs) []
    (fun m hm => hm) (fun m _ hc => (List.not_mem_nil m) hc) hnd
  rw [h0] at hfold
  have hrun : runDirectory rOk true true fs a p false =
      List.foldl (fun cur m => processFile rOk cur m a p false) fs (fsNames fs) := by
    simp [runDirectory, process_directory, process_directory_body, is_valid_directory]
  rw [hrun, hfold]
  unfold mapDone
  apply List.map_congr_left
  intro e he
  rw [if_pos (by
    simp only [List.append_nil, List.mem_reverse]
    exact List.mem_map.mpr ⟨e, he, rfl⟩)]

/-! ### C6: which children are left untouched -/

/-- C6 counterexample: the claim fails on the code at a directory where a
special child (a fifo or a dangling symlink) already bears the anonymized
target name of the regular file `a.log`: the rename of `a.log` goes onto
that name, and POSIX `rename(2)` atomically replaces the special entry
rather than leaving it untouched — the run ends with only the renamed
regular file. -/
theorem nonfiles_claim_counterexample :
    (⟨pyStr "anonymized_e4355b8df831d65d391e9893ae31bfe988ad08f82e1046f5baaa3abb7a6b7905.log",
        EntryKind.special, []⟩ : FSEntry) ∉
      runDirectory (fun _ _ => true) true true
        [⟨pyStr "anonymized_e4355b8df831d65d391e9893ae31bfe988ad08f82e1046f5baaa3abb7a6b7905.log",
            EntryKind.special, []⟩,
         ⟨pyStr "a.log", EntryKind.file, [97]⟩]
        (pyStr "sha256") (pyStr "anonymized_") false ∧
    runDirectory (fun _ _ => true) true true
        [⟨pyStr "anonymized_e4355b8df831d65d391e9893ae31bfe988ad08f82e1046f5baaa3abb7a6b7905.log",
            EntryKind.special, []⟩,
         ⟨pyStr "a.log", EntryKind.file, [97]⟩]
        (pyStr "sha256") (pyStr "anonymized_") false =
      [⟨pyStr "anonymized_e4355b8df831d65d391e9893ae31bfe988ad08f82e1046f5baaa3abb7a6b7905.log",
          EntryKind.file, [97]⟩] := by
  constructor
  · decide
  · decide

/-- C6 (amended): `process_directory` renames only immediate children that
are regular files, and a directory child is always left untouched in every
mode and environment (a rename onto a directory fails and is caught).  A
special child (symlink, fifo, device) is also left untouched provided no
anonymized target name collides with an existing child name
(`hfresh`/`hdist`, the no-collision assumption the spec takes as given);
when such a collision occurs, the rename atomically replaces the special
entry. -/
theorem nonfiles_untouched_amended (rOk : PyStr → PyStr → Bool) (fs : FS)
    (a p : PyStr) (hnd : (fsNames fs).Nodup)
    (hfresh : ∀ e ∈ fs, ∀ t ∈ fsNames fs, renameOutcome rOk a p e ≠ some t)
    (hdist : ∀ e1 ∈ fs, ∀ e2 ∈ fs,
      renameOutcome rOk a p e1 = renameOutcome rOk a p e2 →
      renameOutcome rOk a p e1 = none ∨ e1 = e2) :
    (∀ rOk2 : PyStr → PyStr → Bool, ∀ listdirOk isDir d : Bool,
      ∀ e ∈ fs, e.kind = EntryKind.dir →
        e ∈ runDirectory rOk2 listdirOk isDir fs a p d) ∧
    (∀ e ∈ fs, ¬ e.kind = EntryKind.file →
      e ∈ runDirectory rOk true true fs a p false) := by
  constructor
  · intro rOk2 listdirOk isDir d e he hdir
    unfold runDirectory process_directory process_directory_body
    cases isDir with
    | false => simpa [is_valid_directory] using he
    | true =>
      cases listdirOk with
      | false => simpa [is_valid_directory] using he
      | true =>
        simp only [is_valid_directory, not_true, if_false, Bool.not_true, if_neg]
        have hinv := foldl_preserves
          (P := fun cur => (fsNames cur).Nodup ∧
            ∀ x ∈ fs, x.kind = EntryKind.dir → x ∈ cur)
          (fun cur m => processFile rOk2 cur m a p d)
          (fun cur m hP =>
            ⟨(processFile_preserves rOk2 cur m a p d hP.1).1,
             fun x hx hxd =>
               (processFile_preserves rOk2 cur m a p d hP.1).2 x (hP.2 x hx hxd) hxd⟩)
          (fsNames fs) fs ⟨hnd, fun x hx _ => hx⟩
        simpa using hinv.2 e he hdir
  · intro e he hnf
    rw [run_characterization rOk fs a p hnd hfresh hdist]
    refine List.mem_map.mpr ⟨e, he, applyOutcome_of_none ?_⟩
    simp [renameOutcome, hnf]

/-- Witness for the amended C6: the scenario from the spec, a directory with
subdirectory `archive` and regular file `a.log`; the subdirectory entry
survives the renaming run untouched. -/
theorem nonfiles_untouched_amended_witness :
    (⟨pyStr "archive", EntryKind.dir, []⟩ : FSEntry) ∈
      runDirectory (fun _ _ => true) true true
        [⟨pyStr "archive", EntryKind.dir, []⟩, ⟨pyStr "a.log", EntryKind.file, [97]⟩]
        (pyStr "sha256") (pyStr "anonymized_") false :=
  (nonfiles_untouched_amended (fun _ _ => true)
    [⟨pyStr "archive", EntryKind.dir, []⟩, ⟨pyStr "a.log", EntryKind.file, [97]⟩]
    (pyStr "sha256") (pyStr "anonymized_") (by decide) (by decide) (by decide)).2
    ⟨pyStr "archive", EntryKind.dir, []⟩ (by decide) (by decide)

/-! ### C3: hash failures are isolated -/

theorem hashlibNew_unsupported (a : PyStr) (ha : a ∉ supportedAlgorithms)
    (data : List Nat) : hashlibNew a data = none := by
  simp only [supportedAlgorithms, List.mem_cons, List.not_mem_nil, or_false, not_or] at ha
  obtain ⟨h1, h2, h3, h4⟩ := ha
  unfold hashlibNew
  rw [if_neg h1, if_neg h2, if_neg h3, if_neg h4]

theorem anonymize_none_of_failure (n a p : PyStr)
    (h : utf8Encode n = none ∨ a ∉ supportedAlgorithms) :
    anonymize_file_name n a p = none := by
  rcases h with h | h
  · simp [anonymize_file_name, h]
  · cases he : utf8Encode n with
    | none => simp [anonymize_file_name, he]
    | some data => simp [anonymize_file_name, he, hashlibNew_unsupported a h data]

theorem renameOutcome_none_of_anonymize {rOk : PyStr → PyStr → Bool} {a p : PyStr}
    {e : FSEntry} (h : anonymize_file_name e.name a p = none) :
    renameOutcome rOk a p e = none := by
  unfold renameOutcome
  by_cases hf : e.kind = EntryKind.file
  · rw [if_pos hf, h]
    rfl
  · rw [if_neg hf]

/-- C3: a file whose name cannot be hashed — unsupported algorithm or a
name whose UTF-8 encoding fails — makes `anonymize_file_name` fail with the
logged HashError (the `None` sentinel), and `process_directory` merely
skips it: that entry is still present untouched after the run, while every
other regular file whose anonymization and rename go through is renamed.
The `hfresh`/`hdist` hypotheses restate the standing assumption of the spec that
anonymized names collide with nothing (collision handling is explicitly out
of scope). -/
theorem hash_failure_isolated (rOk : PyStr → PyStr → Bool) (fs : FS) (a p : PyStr)
    (hnd : (fsNames fs).Nodup)
    (hfresh : ∀ e ∈ fs, ∀ t ∈ fsNames fs, renameOutcome rOk a p e ≠ some t)
    (hdist : ∀ e1 ∈ fs, ∀ e2 ∈ fs,
      renameOutcome rOk a p e1 = renameOutcome rOk a p e2 →
      renameOutcome rOk a p e1 = none ∨ e1 = e2)
    (bad : FSEntry) (hbad : bad ∈ fs)
    (hcause : utf8Encode bad.name = none ∨ a ∉ supportedAlgorithms) :
    anonymize_file_name bad.name a p = none ∧
    bad ∈ runDirectory rOk true true fs a p false ∧
    ∀ e ∈ fs, ∀ t, renameOutcome rOk a p e = some t →
      (⟨t, e.kind, e.content⟩ : FSEntry) ∈ runDirectory rOk true true fs a p false := by
  have hanone := anonymize_none_of_failure bad.name a p hcause
  have hchar := run_characterization rOk fs a p hnd hfresh hdist
  refine ⟨hanone, ?_, ?_⟩
  · rw [hchar]
    exact List.mem_map.mpr
      ⟨bad, hbad, applyOutcome_of_none (renameOutcome_none_of_anonymize hanone)⟩
  · intro e he t hout
    rw [hchar]
    exact List.mem_map.mpr ⟨e, he, applyOutcome_of_some hout⟩

/-- Witness for C3: a directory with one file whose name contains a lone
surrogate (UTF-8 encoding fails, as for undecodable POSIX names) and one
ordinary file `a.log`; the bad file stays, the good one is renamed. -/
theorem hash_failure_isolated_witness :
    anonymize_file_name [55296, 46, 116, 120, 116] (pyStr "sha256") (pyStr "anonymized_") =
      none ∧
    (⟨[55296, 46, 116, 120, 116], EntryKind.file, [1]⟩ : FSEntry) ∈
      runDirectory (fun _ _ => true) true true
        [⟨[55296, 46, 116, 120, 116], EntryKind.file, [1]⟩, ⟨pyStr "a.log", EntryKind.file, [2]⟩]
        (pyStr "sha256") (pyStr "anonymized_") false ∧
    ∀ e ∈ ([⟨[55296, 46, 116, 120, 116], EntryKind.file, [1]⟩, ⟨pyStr "a.log", EntryKind.file, [2]⟩] : FS),
      ∀ t, renameOutcome (fun _ _ => true) (pyStr "sha256") (pyStr "anonymized_") e = some t →
      (⟨t, e.kind, e.content⟩ : FSEntry) ∈
        runDirectory (fun _ _ => true) true true
          [⟨[55296, 46, 116, 120, 116], EntryKind.file, [1]⟩, ⟨pyStr "a.log", EntryKind.file, [2]⟩]
          (pyStr "sha256") (pyStr "anonymized_") false :=
  hash_failure_isolated (fun _ _ => true)
    [⟨[55296, 46, 116, 120, 116], EntryKind.file, [1]⟩, ⟨pyStr "a.log", EntryKind.file, [2]⟩]
    (pyStr "sha256") (pyStr "anonymized_") (by decide) (by decide) (by decide)
    ⟨[55296, 46, 116, 120, 116], EntryKind.file, [1]⟩ (by decide) (Or.inl (by decide))

/-! ### C9: rename failures are isolated, no rollback -/

/-- C9: when the rename of one file fails (the environment refuses it,
e.g. permission denied or an existing target), `process_directory` reports
it and continues: the failed file keeps its old name in the result, and
every other file whose rename goes through is renamed — nothing escalates
and nothing is rolled back.  The `hfresh`/`hdist` hypotheses are the
no-collision assumption of the spec. -/
theorem rename_failure_isolated (rOk : PyStr → PyStr → Bool) (fs : FS) (a p : PyStr)
    (hnd : (fsNames fs).Nodup)
    (hfresh : ∀ e ∈ fs, ∀ t ∈ fsNames fs, renameOutcome rOk a p e ≠ some t)
    (hdist : ∀ e1 ∈ fs, ∀ e2 ∈ fs,
      renameOutcome rOk a p e1 = renameOutcome rOk a p e2 →
      renameOutcome rOk a p e1 = none ∨ e1 = e2)
    (ef : FSEntry) (hef : ef ∈ fs) (t : PyStr)
    (hano : anonymize_file_name ef.name a p = some t)
    (hrfail : rOk ef.name t = false) :
    ef ∈ runDirectory rOk true true fs a p false ∧
    ∀ e ∈ fs, ∀ u, renameOutcome rOk a p e = some u →
      (⟨u, e.kind, e.content⟩ : FSEntry) ∈ runDirectory rOk true true fs a p false := by
  have hout : renameOutcome rOk a p ef = none := by
    unfold renameOutcome
    by_cases hf : ef.kind = EntryKind.file
    · rw [if_pos hf, hano, Option.some_bind,
        if_neg (fun hc => absurd hc.2 (by rw [hrfail]; exact Bool.false_ne_true))]
    · rw [if_neg hf]
  have hchar := run_characterization rOk fs a p hnd hfresh hdist
  refine ⟨?_, ?_⟩
  · rw [hchar]
    exact List.mem_map.mpr ⟨ef, hef, applyOutcome_of_none hout⟩
  · intro e he u hu
    rw [hchar]
    exact List.mem_map.mpr ⟨e, he, applyOutcome_of_some hu⟩

/-- Witness for C9: the environment refuses to rename `b.txt` (as a
permission error would); `b.txt` stays while `a.log` is renamed. -/
theorem rename_failure_isolated_witness :
    (⟨pyStr "b.txt", EntryKind.file, [1]⟩ : FSEntry) ∈
      runDirectory (fun old _ => decide (old ≠ pyStr "b.txt")) true true
        [⟨pyStr "b.txt", EntryKind.file, [1]⟩, ⟨pyStr "a.log", EntryKind.file, [2]⟩]
        (pyStr "sha256") (pyStr "anonymized_") false ∧
    ∀ e ∈ ([⟨pyStr "b.txt", EntryKind.file, [1]⟩, ⟨pyStr "a.log", EntryKind.file, [2]⟩] : FS),
      ∀ u, renameOutcome (fun old _ => decide (old ≠ pyStr "b.txt"))
          (pyStr "sha256") (pyStr "anonymized_") e = some u →
      (⟨u, e.kind, e.content⟩ : FSEntry) ∈
        runDirectory (fun old _ => decide (old ≠ pyStr "b.txt")) true true
          [⟨pyStr "b.txt", EntryKind.file, [1]⟩, ⟨pyStr "a.log", EntryKind.file, [2]⟩]
          (pyStr "sha256") (pyStr "anonymized_") false :=
  rename_failure_isolated (fun old _ => decide (old ≠ pyStr "b.txt"))
    [⟨pyStr "b.txt", EntryKind.file, [1]⟩, ⟨pyStr "a.log", EntryKind.file, [2]⟩]
    (pyStr "sha256") (pyStr "anonymized_") (by decide) (by decide) (by decide)
    ⟨pyStr "b.txt", EntryKind.file, [1]⟩ (by decide)
    (pyStr "anonymized_ffa0da5d885fba09d903c782713b6b098c8cf21f56a3a35d9aa920613220d2e1.txt")
    (by decide) (by decide)

/-! ### C10: `process_directory` always returns normally -/

/-- C10: `process_directory` never propagates an exception: even when the
directory walk itself raises (modelled by `listdirOk = false`), the outer
handler catches it and the function returns normally. -/
theorem process_directory_never_raises (rOk : PyStr → PyStr → Bool)
    (listdirOk isDir : Bool) (fs : FS) (a p : PyStr) (d : Bool) :
    ∃ fs2, process_directory rOk listdirOk isDir fs a p d = Except.ok fs2 := by
  unfold process_directory
  cases process_directory_body rOk listdirOk isDir fs a p d <;> exact ⟨_, rfl⟩

end DSO
